import Mathlib

/-!
Verification of the whole-file one-bit rotation program (`src/hexegic.cpp`).

The byte stream is embedded as a `List Nat` whose members are below 256
(the values read through `uint8_t`).  The streaming loops of `rotate`
become structural recursions: the `LEFT` branch carries the saved
`first_bit` and peeks one byte ahead; the `RIGHT` branch threads the
`saved_bit` carry.  `parse_instruction` and the identical-path guard of
`main` are embedded over `List Char` with the `strnlen` / `strncmp`
semantics for NUL-free argument strings.
-/

namespace BitRotate

/-- The rotation direction (`enum class Instruction`). -/
inductive Instruction where
  | LEFT
  | RIGHT
deriving DecidableEq

/-- `std::rotl` on `uint8_t` by `n` (for `0 < n < 8`). -/
def rotl8 (x n : Nat) : Nat := ((x <<< n) ||| (x >>> (8 - n))) % 256

/-- `std::rotr` on `uint8_t` by `n` (for `0 < n < 8`). -/
def rotr8 (x n : Nat) : Nat := ((x >>> n) ||| (x <<< (8 - n))) % 256

/-- One output byte of the `LEFT` branch (lines 108-119): the current byte
rotated left inside itself, its low bit replaced by bit 7 of the already
masked `peeked_bit`. -/
def leftOutByte (character peeked_bit : Nat) : Nat :=
  (0xFE &&& rotl8 character 1) ||| (0x01 &&& rotr8 peeked_bit 7)

/-- One output byte of the `RIGHT` branch (lines 137-142): the current byte
rotated right inside itself, its high bit replaced by the carried
`saved_bit` moved to bit 7 (through the `0xA0` mask of line 142). -/
def rightOutByte (character saved_bit : Nat) : Nat :=
  (0x7F &&& rotr8 character 1) ||| (0xA0 &&& rotl8 saved_bit 7)

/-- The `LEFT` loop of `rotate` (lines 106-122): `first_bit` is the saved,
already masked, peek of byte 0; while another byte remains the peeked bit
comes from it, masked with `0xA0` (line 117). -/
def rotateLeftLoop (first_bit : Nat) : List Nat → List Nat
  | [] => []
  | character :: rest =>
    leftOutByte character
      (match rest with
       | peeked_char :: _ => peeked_char &&& 0xA0
       | [] => first_bit) :: rotateLeftLoop first_bit rest

/-- The `RIGHT` loop of `rotate` (lines 135-146), threading the carry
`saved_bit`. -/
def rotateRightLoop (saved_bit : Nat) : List Nat → List Nat
  | [] => []
  | character :: rest =>
    rightOutByte character saved_bit :: rotateRightLoop (character &&& 0x01) rest

/-- The `rotate` function (lines 88-148).  For `LEFT` the initial peek of an
empty stream yields `EOF` cast to `uint8_t`, i.e. `255`; for `RIGHT` the
seek to the last byte of an empty stream fails and the loop runs zero
times, so the default below is irrelevant there. -/
def rotate (input : List Nat) (instruction : Instruction) : List Nat :=
  match instruction with
  | .LEFT => rotateLeftLoop ((input.headD 0xFF) &&& 0xA0) input
  | .RIGHT => rotateRightLoop ((input.getLastD 0xFF) &&& 0x01) input

/-- `strnlen` on a NUL-free argument string. -/
def strnlen (s : List Char) (maxlen : Nat) : Nat := min s.length maxlen

/-- `strncmp(a, b, n) == 0` on NUL-free argument strings: the first `n`
characters (or all of them, terminator included, when a string is shorter)
agree. -/
def strncmpEq (a b : List Char) (n : Nat) : Bool := a.take n == b.take n

/-- `parse_instruction` (lines 44-86). -/
def parse_instruction (instruction : List Char) : Option Instruction :=
  let left : List Char := ['l', 'e', 'f', 't']
  let left_size : Nat := left.length
  let right : List Char := ['r', 'i', 'g', 'h', 't']
  let right_size : Nat := right.length
  let max_size : Nat := max left_size right_size
  if strnlen instruction (max_size + 1) > max_size then
    none
  else if strnlen instruction left_size == left_size
         && strncmpEq left instruction left_size then
    some Instruction.LEFT
  else if strnlen instruction right_size == right_size
         && strncmpEq right instruction right_size then
    some Instruction.RIGHT
  else
    none

/-- `PATH_MAX` from `<linux/limits.h>`. -/
def PATH_MAX : Nat := 4096

/-- The identical-path guard of `main` (line 168): the invocation is
rejected when `strncmp(argv[2], argv[3], PATH_MAX) == 0`. -/
def samePathRejected (a b : List Char) : Bool := strncmpEq a b PATH_MAX

/-- Modelled from the spec: the per-byte left-rotation reference formula of
section 6, `out[i] = ((in[i] << 1 | in[i] >> 7) & 0xFE) | (in[next] >> 7)`,
with the shift performed on 8-bit unsigned values. -/
def specLeftByte (x y : Nat) : Nat :=
  ((((x <<< 1) % 256) ||| (x >>> 7)) &&& 0xFE) ||| (y >>> 7)

/-- Modelled from the spec: the per-byte right-rotation reference formula of
section 6, `out[i] = ((in[i] >> 1 | in[i] << 7) & 0x7F) | ((in[prev] & 0x01) << 7)`,
with the shift performed on 8-bit unsigned values. -/
def specRightByte (x p : Nat) : Nat :=
  (((x >>> 1) ||| ((x <<< 7) % 256)) &&& 0x7F) ||| ((p &&& 0x01) <<< 7)

/-- The `RIGHT` output byte with the single-bit mask `0x80` in place of the
`0xA0` of line 142. -/
def rightOutByte80 (character saved_bit : Nat) : Nat :=
  (0x7F &&& rotr8 character 1) ||| (0x80 &&& rotl8 saved_bit 7)

/-- The `LEFT` loop with the lookahead mask `0x80` in place of the `0xA0`
of line 117. -/
def rotateLeftLoop80 (first_bit : Nat) : List Nat → List Nat
  | [] => []
  | character :: rest =>
    leftOutByte character
      (match rest with
       | peeked_char :: _ => peeked_char &&& 0x80
       | [] => first_bit) :: rotateLeftLoop80 first_bit rest

/-- The `RIGHT` loop built on `rightOutByte80`. -/
def rotateRightLoop80 (saved_bit : Nat) : List Nat → List Nat
  | [] => []
  | character :: rest =>
    rightOutByte80 character saved_bit :: rotateRightLoop80 (character &&& 0x01) rest

/-- The variant of `rotate` that uses the single most-significant-bit mask
`0x80` at lines 104, 117 and 142 instead of `0xA0`. -/
def rotate80 (input : List Nat) (instruction : Instruction) : List Nat :=
  match instruction with
  | .LEFT => rotateLeftLoop80 ((input.headD 0xFF) &&& 0x80) input
  | .RIGHT => rotateRightLoop80 ((input.getLastD 0xFF) &&& 0x01) input

/-- The 8 bits of a byte, most significant first. -/
def byteBits (b : Nat) : List Bool :=
  [b.testBit 7, b.testBit 6, b.testBit 5, b.testBit 4,
   b.testBit 3, b.testBit 2, b.testBit 1, b.testBit 0]

/-- The whole stream as one bit sequence, most significant bit of byte 0
first — the order the program's header comment assigns to the file. -/
def bitsOfBytes : List Nat → List Bool
  | [] => []
  | b :: rest => byteBits b ++ bitsOfBytes rest

set_option maxRecDepth 4096

/-! ## Small per-byte facts, settled by finite checking -/

theorem lowBit_rotr7 : ∀ p, p < 256 → 0x01 &&& rotr8 p 7 = p >>> 7 := by decide

theorem maskA0_shiftRight7 : ∀ y, y < 256 → (y &&& 0xA0) >>> 7 = y >>> 7 := by decide

theorem feMask_rotl_eq :
    ∀ x, x < 256 → 0xFE &&& rotl8 x 1 = (((x <<< 1) % 256) ||| (x >>> 7)) &&& 0xFE := by decide

theorem sevenFMask_rotr_eq :
    ∀ x, x < 256 → 0x7F &&& rotr8 x 1 = ((x >>> 1) ||| ((x <<< 7) % 256)) &&& 0x7F := by decide

theorem carryMask_eq : ∀ s, s < 2 → 0xA0 &&& rotl8 s 7 = s <<< 7 := by decide

theorem byteBits_feMask_or :
    ∀ x, x < 256 → ∀ c, c < 2 →
      byteBits ((0xFE &&& rotl8 x 1) ||| c) =
        [x.testBit 6, x.testBit 5, x.testBit 4, x.testBit 3,
         x.testBit 2, x.testBit 1, x.testBit 0, decide (c = 1)] := by decide

theorem testBit7_eq_decide : ∀ p, p < 256 → p.testBit 7 = decide (p >>> 7 = 1) := by decide

theorem byteBits_rightOut :
    ∀ x, x < 256 → ∀ s, s < 2 →
      byteBits (rightOutByte x s) =
        [s.testBit 0, x.testBit 7, x.testBit 6, x.testBit 5,
         x.testBit 4, x.testBit 3, x.testBit 2, x.testBit 1] := by decide

theorem byte_decomp : ∀ x, x < 256 →
    x = 128 * (x.testBit 7).toNat + 64 * (x.testBit 6).toNat + 32 * (x.testBit 5).toNat
      + 16 * (x.testBit 4).toNat + 8 * (x.testBit 3).toNat + 4 * (x.testBit 2).toNat
      + 2 * (x.testBit 1).toNat + (x.testBit 0).toNat := by decide

theorem maskA0_80_bit : ∀ u, u < 256 → 0x01 &&& rotr8 u 7 = 0x01 &&& rotr8 (u &&& 0x80) 7 := by
  decide

theorem carryMaskA0_80 : ∀ s, s < 2 → 0xA0 &&& rotl8 s 7 = 0x80 &&& rotl8 s 7 := by decide

/-! ## Elementary bound facts -/

theorem land_lt_256 (y m : Nat) (hm : m < 256) : y &&& m < 256 :=
  Nat.lt_of_le_of_lt Nat.and_le_right hm

theorem land_one_lt_two (p : Nat) : p &&& 0x01 < 2 :=
  Nat.lt_of_le_of_lt Nat.and_le_right (by decide)

theorem lor_lt_256 {a b : Nat} (ha : a < 256) (hb : b < 256) : a ||| b < 256 := by
  have h256 : (256 : Nat) = 2 ^ 8 := by norm_num
  rw [h256] at ha hb ⊢
  exact Nat.or_lt_two_pow ha hb

theorem rotl8_lt (x n : Nat) : rotl8 x n < 256 := Nat.mod_lt _ (by decide)

theorem rotr8_lt (x n : Nat) : rotr8 x n < 256 := Nat.mod_lt _ (by decide)

theorem leftOutByte_lt (c p : Nat) : leftOutByte c p < 256 :=
  lor_lt_256 (Nat.lt_of_le_of_lt Nat.and_le_right (rotl8_lt c 1))
    (Nat.lt_of_le_of_lt Nat.and_le_right (rotr8_lt p 7))

theorem rightOutByte_lt (c s : Nat) : rightOutByte c s < 256 :=
  lor_lt_256 (Nat.lt_of_le_of_lt Nat.and_le_right (rotr8_lt c 1))
    (Nat.lt_of_le_of_lt Nat.and_le_right (rotl8_lt s 7))

theorem shiftRight7_lt_two {p : Nat} (hp : p < 256) : p >>> 7 < 2 := by
  rw [Nat.shiftRight_eq_div_pow]
  omega

/-! ## Lengths and member bounds of the rotation loops -/

theorem rotateLeftLoop_length : ∀ (l : List Nat) (fb : Nat),
    (rotateLeftLoop fb l).length = l.length := by
  intro l
  induction l with
  | nil => intro fb; rfl
  | cons c rest ih => intro fb; simp [rotateLeftLoop, ih]

theorem rotateRightLoop_length : ∀ (l : List Nat) (sb : Nat),
    (rotateRightLoop sb l).length = l.length := by
  intro l
  induction l with
  | nil => intro sb; rfl
  | cons c rest ih => intro sb; simp [rotateRightLoop, ih]

theorem length_rotate_eq (l : List Nat) (d : Instruction) : (rotate l d).length = l.length := by
  cases d <;> simp [rotate, rotateLeftLoop_length, rotateRightLoop_length]

theorem rotateLeftLoop_mem_lt : ∀ (l : List Nat) (fb x : Nat),
    x ∈ rotateLeftLoop fb l → x < 256 := by
  intro l
  induction l with
  | nil => intro fb x hx; simp [rotateLeftLoop] at hx
  | cons c rest ih =>
    intro fb x hx
    simp only [rotateLeftLoop, List.mem_cons] at hx
    rcases hx with h | h
    · subst h; exact leftOutByte_lt _ _
    · exact ih fb x h

theorem rotateRightLoop_mem_lt : ∀ (l : List Nat) (sb x : Nat),
    x ∈ rotateRightLoop sb l → x < 256 := by
  intro l
  induction l with
  | nil => intro sb x hx; simp [rotateRightLoop] at hx
  | cons c rest ih =>
    intro sb x hx
    simp only [rotateRightLoop, List.mem_cons] at hx
    rcases hx with h | h
    · subst h; exact rightOutByte_lt _ _
    · exact ih _ x h

theorem rotate_mem_lt (l : List Nat) (d : Instruction) :
    ∀ x ∈ rotate l d, x < 256 := by
  intro x hx
  cases d with
  | LEFT => exact rotateLeftLoop_mem_lt l _ x hx
  | RIGHT => exact rotateRightLoop_mem_lt l _ x hx

/-! ## Accessor helpers -/

theorem headD_eq_getD (l : List Nat) (h : l ≠ []) : l.headD 0xFF = l.getD 0 0 := by
  cases l with
  | nil => exact absurd rfl h
  | cons c rest => rfl

theorem getLastD_irrel (c : Nat) (t : List Nat) (d₁ d₂ : Nat) :
    (c :: t).getLastD d₁ = (c :: t).getLastD d₂ := by
  rw [List.getLastD_cons, List.getLastD_cons]

theorem getLastD_eq_getD : ∀ (l : List Nat), l ≠ [] →
    l.getLastD 0xFF = l.getD (l.length - 1) 0 := by
  intro l
  induction l with
  | nil => intro h; exact absurd rfl h
  | cons c rest ih =>
    intro _
    cases rest with
    | nil => rfl
    | cons y t =>
      rw [List.getLastD_cons, getLastD_irrel y t c 0xFF, ih (by simp)]
      simp

theorem getD_lt_of_bounds (l : List Nat) (hb : ∀ x ∈ l, x < 256) (i : Nat)
    (hi : i < l.length) : l.getD i 0 < 256 := by
  have h1 : l.getD i 0 = l.get ⟨i, hi⟩ := by
    simp [List.getD_eq_getElem?_getD, List.getElem?_eq_getElem hi, List.get_eq_getElem]
  rw [h1]
  exact hb _ (List.get_mem l i hi)

/-! ## Element-wise characterisation of the two loops -/

theorem rotateLeftLoop_getD : ∀ (l : List Nat) (fb i : Nat), i < l.length →
    (rotateLeftLoop fb l).getD i 0 =
      leftOutByte (l.getD i 0)
        (if i + 1 < l.length then (l.getD (i + 1) 0) &&& 0xA0 else fb) := by
  intro l
  induction l with
  | nil => intro fb i hi; simp at hi
  | cons c rest ih =>
    intro fb i hi
    cases i with
    | zero =>
      cases rest with
      | nil => simp [rotateLeftLoop]
      | cons y t => simp [rotateLeftLoop]
    | succ j =>
      have hj : j < rest.length := by simpa using hi
      have hcond : (j + 1 + 1 < (c :: rest).length) = (j + 1 < rest.length) := by
        simp
      simp only [rotateLeftLoop, List.getD_cons_succ, List.length_cons]
      rw [ih fb j hj]
      by_cases h : j + 1 < rest.length
      · rw [if_pos h, if_pos (by omega)]
      · rw [if_neg h, if_neg (by omega)]

theorem rotateRightLoop_getD : ∀ (l : List Nat) (sb i : Nat), i < l.length →
    (rotateRightLoop sb l).getD i 0 =
      rightOutByte (l.getD i 0)
        (if i = 0 then sb else (l.getD (i - 1) 0) &&& 0x01) := by
  intro l
  induction l with
  | nil => intro sb i hi; simp at hi
  | cons c rest ih =>
    intro sb i hi
    cases i with
    | zero => simp [rotateRightLoop]
    | succ j =>
      have hj : j < rest.length := by simpa using hi
      simp only [rotateRightLoop, List.getD_cons_succ]
      rw [ih (c &&& 0x01) j hj]
      cases j with
      | zero => simp
      | succ k => simp

/-! ## The code's per-byte output equals the specification formula -/

theorem leftOutByte_spec (x : Nat) (hx : x < 256) (y : Nat) (hy : y < 256) :
    leftOutByte x (y &&& 0xA0) = specLeftByte x y := by
  unfold leftOutByte specLeftByte
  rw [lowBit_rotr7 (y &&& 0xA0) (land_lt_256 y 0xA0 (by decide)),
    maskA0_shiftRight7 y hy, feMask_rotl_eq x hx]

theorem rightOutByte_spec (x : Nat) (hx : x < 256) (p : Nat) :
    rightOutByte x (p &&& 0x01) = specRightByte x p := by
  unfold rightOutByte specRightByte
  rw [carryMask_eq (p &&& 0x01) (land_one_lt_two p), sevenFMask_rotr_eq x hx]

/-! ## The stream bit sequence -/

theorem testBit7_landA0 (y : Nat) : (y &&& 0xA0).testBit 7 = y.testBit 7 := by
  rw [Nat.testBit_and, (by decide : Nat.testBit 0xA0 7 = true), Bool.and_true]

theorem testBit0_land1 (y : Nat) : (y &&& 0x01).testBit 0 = y.testBit 0 := by
  rw [Nat.testBit_and, (by decide : Nat.testBit 0x01 0 = true), Bool.and_true]

theorem byteBits_leftOut (x : Nat) (hx : x < 256) (p : Nat) (hp : p < 256) :
    byteBits (leftOutByte x p) =
      [x.testBit 6, x.testBit 5, x.testBit 4, x.testBit 3,
       x.testBit 2, x.testBit 1, x.testBit 0, p.testBit 7] := by
  unfold leftOutByte
  rw [lowBit_rotr7 p hp, byteBits_feMask_or x hx (p >>> 7) (shiftRight7_lt_two hp),
    ← testBit7_eq_decide p hp]

theorem length_bitsOfBytes : ∀ (l : List Nat), (bitsOfBytes l).length = 8 * l.length := by
  intro l
  induction l with
  | nil => rfl
  | cons c rest ih => simp [bitsOfBytes, byteBits, ih]; omega

theorem bitsOfBytes_ne_nil (l : List Nat) (h : l ≠ []) : bitsOfBytes l ≠ [] := by
  intro hbit
  apply h
  have hlen : (bitsOfBytes l).length = 0 := by rw [hbit]; rfl
  rw [length_bitsOfBytes] at hlen
  exact List.length_eq_zero.mp (by omega)

theorem bits_rotateLeftLoop : ∀ (l : List Nat), l ≠ [] → (∀ x ∈ l, x < 256) →
    ∀ fb, fb < 256 →
      bitsOfBytes (rotateLeftLoop fb l) = (bitsOfBytes l).drop 1 ++ [fb.testBit 7] := by
  intro l
  induction l with
  | nil => intro h; exact absurd rfl h
  | cons c rest ih =>
    intro _ hb fb hfb
    have hc : c < 256 := hb c (List.mem_cons_self c rest)
    cases rest with
    | nil =>
      show bitsOfBytes [leftOutByte c fb] = (bitsOfBytes [c]).drop 1 ++ [fb.testBit 7]
      rw [show bitsOfBytes [leftOutByte c fb] = byteBits (leftOutByte c fb) ++ [] from rfl,
        byteBits_leftOut c hc fb hfb]
      simp [bitsOfBytes, byteBits]
    | cons y t =>
      have hy : y < 256 := hb y (by simp)
      have hrest : ∀ x ∈ y :: t, x < 256 := fun x hx => hb x (List.mem_cons_of_mem c hx)
      show byteBits (leftOutByte c (y &&& 0xA0)) ++ bitsOfBytes (rotateLeftLoop fb (y :: t))
          = (bitsOfBytes (c :: y :: t)).drop 1 ++ [fb.testBit 7]
      rw [byteBits_leftOut c hc (y &&& 0xA0) (land_lt_256 y 0xA0 (by decide)),
        testBit7_landA0, ih (by simp) hrest fb hfb]
      show _ = (byteBits c ++ bitsOfBytes (y :: t)).drop 1 ++ [fb.testBit 7]
      rw [show bitsOfBytes (y :: t) = byteBits y ++ bitsOfBytes t from rfl]
      simp [byteBits]

theorem bits_rotateRightLoop : ∀ (l : List Nat), l ≠ [] → (∀ x ∈ l, x < 256) →
    ∀ sb, sb < 2 →
      bitsOfBytes (rotateRightLoop sb l) = sb.testBit 0 :: (bitsOfBytes l).dropLast := by
  intro l
  induction l with
  | nil => intro h; exact absurd rfl h
  | cons c rest ih =>
    intro _ hb sb hsb
    have hc : c < 256 := hb c (List.mem_cons_self c rest)
    cases rest with
    | nil =>
      show bitsOfBytes [rightOutByte c sb] = sb.testBit 0 :: (bitsOfBytes [c]).dropLast
      rw [show bitsOfBytes [rightOutByte c sb] = byteBits (rightOutByte c sb) ++ [] from rfl,
        byteBits_rightOut c hc sb hsb]
      simp [bitsOfBytes, byteBits]
    | cons y t =>
      have hrest : ∀ x ∈ y :: t, x < 256 := fun x hx => hb x (List.mem_cons_of_mem c hx)
      show byteBits (rightOutByte c sb) ++ bitsOfBytes (rotateRightLoop (c &&& 0x01) (y :: t))
          = sb.testBit 0 :: (bitsOfBytes (c :: y :: t)).dropLast
      rw [byteBits_rightOut c hc sb hsb, ih (by simp) hrest (c &&& 0x01) (land_one_lt_two c),
        testBit0_land1]
      show _ = sb.testBit 0 :: (byteBits c ++ bitsOfBytes (y :: t)).dropLast
      rw [List.dropLast_append_of_ne_nil (byteBits c) (bitsOfBytes_ne_nil (y :: t) (by simp))]
      simp [byteBits]

/-! ## Rotation of the whole bit sequence -/

theorem rotate_ne_nil (l : List Nat) (d : Instruction) (h : l ≠ []) : rotate l d ≠ [] := by
  intro hnil
  apply h
  have hlen := length_rotate_eq l d
  rw [hnil] at hlen
  exact List.length_eq_zero.mp hlen.symm

theorem one_le_bits_length (l : List Nat) (h : l ≠ []) : 1 ≤ (bitsOfBytes l).length := by
  rw [length_bitsOfBytes]
  cases l with
  | nil => exact absurd rfl h
  | cons c t => simp; omega

theorem bits_rotate_left (l : List Nat) (h : l ≠ []) (hb : ∀ x ∈ l, x < 256) :
    bitsOfBytes (rotate l Instruction.LEFT) = (bitsOfBytes l).rotate 1 := by
  cases l with
  | nil => exact absurd rfl h
  | cons c t =>
    show bitsOfBytes (rotateLeftLoop (((c :: t).headD 0xFF) &&& 0xA0) (c :: t)) = _
    rw [List.headD_cons,
      bits_rotateLeftLoop (c :: t) h hb (c &&& 0xA0) (land_lt_256 c 0xA0 (by decide)),
      testBit7_landA0,
      List.rotate_eq_drop_append_take (one_le_bits_length (c :: t) h),
      show bitsOfBytes (c :: t) = byteBits c ++ bitsOfBytes t from rfl]
    simp [byteBits]

theorem bits_dropLast_getLast : ∀ (l : List Nat), l ≠ [] →
    (bitsOfBytes l).dropLast ++ [(l.getLastD 0xFF).testBit 0] = bitsOfBytes l := by
  intro l
  induction l with
  | nil => intro h; exact absurd rfl h
  | cons c rest ih =>
    intro _
    cases rest with
    | nil => simp [bitsOfBytes, byteBits, List.getLastD]
    | cons y t =>
      rw [show bitsOfBytes (c :: y :: t) = byteBits c ++ bitsOfBytes (y :: t) from rfl,
        List.dropLast_append_of_ne_nil (byteBits c) (bitsOfBytes_ne_nil (y :: t) (by simp)),
        List.append_assoc, List.getLastD_cons, getLastD_irrel y t c 0xFF, ih (by simp)]

theorem bits_rotate_right1 (l : List Nat) (h : l ≠ []) (hb : ∀ x ∈ l, x < 256) :
    (bitsOfBytes (rotate l Instruction.RIGHT)).rotate 1 = bitsOfBytes l := by
  show (bitsOfBytes (rotateRightLoop ((l.getLastD 0xFF) &&& 0x01) l)).rotate 1 = _
  rw [bits_rotateRightLoop l h hb ((l.getLastD 0xFF) &&& 0x01) (land_one_lt_two _),
    testBit0_land1,
    List.rotate_eq_drop_append_take (by simp)]
  simp only [List.drop_succ_cons, List.drop_zero, List.take_succ_cons, List.take_zero]
  exact bits_dropLast_getLast l h

theorem bits_rotate_right (l : List Nat) (h : l ≠ []) (hb : ∀ x ∈ l, x < 256) :
    bitsOfBytes (rotate l Instruction.RIGHT) = (bitsOfBytes l).rotate (8 * l.length - 1) := by
  have hlen : (bitsOfBytes (rotate l Instruction.RIGHT)).length = 8 * l.length := by
    rw [length_bitsOfBytes, length_rotate_eq]
  have h1 : (bitsOfBytes l).rotate (8 * l.length - 1)
      = ((bitsOfBytes (rotate l Instruction.RIGHT)).rotate 1).rotate (8 * l.length - 1) := by
    rw [bits_rotate_right1 l h hb]
  have hN : 1 ≤ l.length := by
    cases l with
    | nil => exact absurd rfl h
    | cons c t => simp
  rw [h1, List.rotate_rotate, show 1 + (8 * l.length - 1) = 8 * l.length from by omega,
    ← hlen, List.rotate_length]

/-! ## The bit sequence determines the byte sequence -/

theorem byteBits_inj_byte (x : Nat) (hx : x < 256) (y : Nat) (hy : y < 256)
    (h : byteBits x = byteBits y) : x = y := by
  have h' := h
  simp only [byteBits, List.cons.injEq, and_true] at h'
  obtain ⟨e7, e6, e5, e4, e3, e2, e1, e0⟩ := h'
  rw [byte_decomp x hx, byte_decomp y hy, e7, e6, e5, e4, e3, e2, e1, e0]

theorem bitsOfBytes_inj : ∀ (l₁ l₂ : List Nat), (∀ x ∈ l₁, x < 256) → (∀ x ∈ l₂, x < 256) →
    bitsOfBytes l₁ = bitsOfBytes l₂ → l₁ = l₂ := by
  intro l₁
  induction l₁ with
  | nil =>
    intro l₂ _ _ h
    cases l₂ with
    | nil => rfl
    | cons y u =>
      have h0 : bitsOfBytes (y :: u) = ([] : List Bool) := h.symm
      exact absurd h0 (bitsOfBytes_ne_nil (y :: u) (by simp))
  | cons c t ih =>
    intro l₂ hb₁ hb₂ h
    cases l₂ with
    | nil =>
      have h0 : bitsOfBytes (c :: t) = ([] : List Bool) := h
      exact absurd h0 (bitsOfBytes_ne_nil (c :: t) (by simp))
    | cons y u =>
      have h' : byteBits c ++ bitsOfBytes t = byteBits y ++ bitsOfBytes u := h
      obtain ⟨h1, h2⟩ := List.append_inj h' rfl
      have hc : c = y :=
        byteBits_inj_byte c (hb₁ c (List.mem_cons_self c t)) y (hb₂ y (List.mem_cons_self y u)) h1
      have ht : t = u :=
        ih u (fun x hx => hb₁ x (List.mem_cons_of_mem c hx))
          (fun x hx => hb₂ x (List.mem_cons_of_mem y hx)) h2
      rw [hc, ht]

/-! ## Iterated rotation -/

theorem iterate_rotate_length (d : Instruction) : ∀ (m : Nat) (l : List Nat),
    ((fun t => rotate t d)^[m] l).length = l.length := by
  intro m
  induction m with
  | zero => intro l; rfl
  | succ k ih =>
    intro l
    rw [Function.iterate_succ_apply', length_rotate_eq, ih]

theorem iterate_rotate_bounds (d : Instruction) : ∀ (m : Nat) (l : List Nat),
    (∀ x ∈ l, x < 256) → ∀ x ∈ (fun t => rotate t d)^[m] l, x < 256 := by
  intro m
  induction m with
  | zero => intro l hb; exact hb
  | succ k ih =>
    intro l hb
    rw [Function.iterate_succ_apply']
    exact rotate_mem_lt _ d

theorem iterate_rotate_ne_nil (d : Instruction) (m : Nat) (l : List Nat) (h : l ≠ []) :
    (fun t => rotate t d)^[m] l ≠ [] := by
  intro hnil
  apply h
  have hlen := iterate_rotate_length d m l
  rw [hnil] at hlen
  exact List.length_eq_zero.mp hlen.symm

theorem bits_iterate_left : ∀ (m : Nat) (l : List Nat), l ≠ [] → (∀ x ∈ l, x < 256) →
    bitsOfBytes ((fun t => rotate t Instruction.LEFT)^[m] l) = (bitsOfBytes l).rotate m := by
  intro m
  induction m with
  | zero => intro l _ _; rw [Function.iterate_zero_apply, List.rotate_zero]
  | succ k ih =>
    intro l hne hb
    rw [Function.iterate_succ_apply',
      bits_rotate_left _ (iterate_rotate_ne_nil Instruction.LEFT k l hne)
        (iterate_rotate_bounds Instruction.LEFT k l hb),
      ih l hne hb, List.rotate_rotate]

theorem bits_iterate_right : ∀ (m : Nat) (l : List Nat), l ≠ [] → (∀ x ∈ l, x < 256) →
    bitsOfBytes ((fun t => rotate t Instruction.RIGHT)^[m] l)
      = (bitsOfBytes l).rotate (m * (8 * l.length - 1)) := by
  intro m
  induction m with
  | zero => intro l _ _; rw [Function.iterate_zero_apply, Nat.zero_mul, List.rotate_zero]
  | succ k ih =>
    intro l hne hb
    rw [Function.iterate_succ_apply',
      bits_rotate_right _ (iterate_rotate_ne_nil Instruction.RIGHT k l hne)
        (iterate_rotate_bounds Instruction.RIGHT k l hb),
      iterate_rotate_length Instruction.RIGHT k l,
      ih l hne hb, List.rotate_rotate, ← Nat.succ_mul]

/-! ## The 0xA0 masks behave as the single-bit mask 0x80 -/

theorem leftOutByte_mask80 (c u : Nat) (hu : u < 256) :
    leftOutByte c u = leftOutByte c (u &&& 0x80) := by
  unfold leftOutByte
  rw [maskA0_80_bit u hu]

theorem rotateLeftLoop_mask : ∀ (l : List Nat) (fb : Nat), fb < 256 →
    rotateLeftLoop fb l = rotateLeftLoop80 (fb &&& 0x80) l := by
  intro l
  induction l with
  | nil => intro fb _; rfl
  | cons c rest ih =>
    intro fb hfb
    cases rest with
    | nil =>
      show [leftOutByte c fb] = [leftOutByte c (fb &&& 0x80)]
      rw [leftOutByte_mask80 c fb hfb]
    | cons y t =>
      show leftOutByte c (y &&& 0xA0) :: rotateLeftLoop fb (y :: t)
          = leftOutByte c (y &&& 0x80) :: rotateLeftLoop80 (fb &&& 0x80) (y :: t)
      rw [leftOutByte_mask80 c (y &&& 0xA0) (land_lt_256 y 0xA0 (by decide)),
        Nat.and_assoc, (by decide : (0xA0 : Nat) &&& 0x80 = 0x80), ih fb hfb]

theorem rightOutByte_mask80 (c s : Nat) (hs : s < 2) :
    rightOutByte c s = rightOutByte80 c s := by
  unfold rightOutByte rightOutByte80
  rw [carryMaskA0_80 s hs]

theorem rotateRightLoop_mask : ∀ (l : List Nat) (sb : Nat), sb < 2 →
    rotateRightLoop sb l = rotateRightLoop80 sb l := by
  intro l
  induction l with
  | nil => intro sb _; rfl
  | cons c rest ih =>
    intro sb hsb
    show rightOutByte c sb :: rotateRightLoop (c &&& 0x01) rest
        = rightOutByte80 c sb :: rotateRightLoop80 (c &&& 0x01) rest
    rw [rightOutByte_mask80 c sb hsb, ih (c &&& 0x01) (land_one_lt_two c)]

/-! ## The claims -/

/-- C1: for every byte sequence of length `N ≥ 1` and every index `i < N`,
the `LEFT` branch of `rotate` produces
`out[i] = ((in[i] << 1 | in[i] >> 7) & 0xFE) | (in[(i+1) mod N] >> 7)` on
8-bit unsigned values, wraparound at `i = N-1` included. -/
theorem left_branch_matches_spec_formula (l : List Nat) (hb : ∀ x ∈ l, x < 256)
    (i : Nat) (hi : i < l.length) :
    (rotate l Instruction.LEFT).getD i 0
      = specLeftByte (l.getD i 0) (l.getD ((i + 1) % l.length) 0) := by
  have hne : l ≠ [] := by
    intro h0
    rw [h0] at hi
    simp at hi
  show (rotateLeftLoop ((l.headD 0xFF) &&& 0xA0) l).getD i 0 = _
  rw [rotateLeftLoop_getD l _ i hi]
  have hx : l.getD i 0 < 256 := getD_lt_of_bounds l hb i hi
  by_cases h : i + 1 < l.length
  · rw [if_pos h, Nat.mod_eq_of_lt h]
    exact leftOutByte_spec _ hx _ (getD_lt_of_bounds l hb (i + 1) h)
  · rw [if_neg h]
    have hieq : i + 1 = l.length := by omega
    rw [headD_eq_getD l hne, hieq, Nat.mod_self]
    exact leftOutByte_spec _ hx _ (getD_lt_of_bounds l hb 0 (by omega))

theorem left_branch_matches_spec_formula_witness :
    (∀ x ∈ ([0x81, 0x40] : List Nat), x < 256) ∧ 1 < ([0x81, 0x40] : List Nat).length ∧
      (rotate [0x81, 0x40] Instruction.LEFT).getD 1 0
        = specLeftByte (([0x81, 0x40] : List Nat).getD 1 0)
            (([0x81, 0x40] : List Nat).getD ((1 + 1) % ([0x81, 0x40] : List Nat).length) 0) :=
  ⟨by decide, by decide, left_branch_matches_spec_formula [0x81, 0x40] (by decide) 1 (by decide)⟩

/-- C2: for every byte sequence of length `N ≥ 1` and every index `i < N`,
the `RIGHT` branch of `rotate` produces
`out[i] = ((in[i] >> 1 | in[i] << 7) & 0x7F) | ((in[(i-1+N) mod N] & 0x01) << 7)`
on 8-bit unsigned values, wraparound at `i = 0` included. -/
theorem right_branch_matches_spec_formula (l : List Nat) (hb : ∀ x ∈ l, x < 256)
    (i : Nat) (hi : i < l.length) :
    (rotate l Instruction.RIGHT).getD i 0
      = specRightByte (l.getD i 0) (l.getD ((i + l.length - 1) % l.length) 0) := by
  have hne : l ≠ [] := by
    intro h0
    rw [h0] at hi
    simp at hi
  show (rotateRightLoop ((l.getLastD 0xFF) &&& 0x01) l).getD i 0 = _
  rw [rotateRightLoop_getD l _ i hi]
  have hx : l.getD i 0 < 256 := getD_lt_of_bounds l hb i hi
  cases i with
  | zero =>
    rw [if_pos rfl, getLastD_eq_getD l hne,
      show (0 + l.length - 1) % l.length = l.length - 1 from by
        rw [Nat.zero_add]
        exact Nat.mod_eq_of_lt (by omega)]
    exact rightOutByte_spec _ hx _
  | succ j =>
    rw [if_neg (by omega),
      show (j + 1 + l.length - 1) % l.length = j from by
        rw [show j + 1 + l.length - 1 = j + l.length from by omega, Nat.add_mod_right]
        exact Nat.mod_eq_of_lt (by omega),
      show j + 1 - 1 = j from rfl]
    exact rightOutByte_spec _ hx _

theorem right_branch_matches_spec_formula_witness :
    (∀ x ∈ ([0x01, 0x80] : List Nat), x < 256) ∧ 0 < ([0x01, 0x80] : List Nat).length ∧
      (rotate [0x01, 0x80] Instruction.RIGHT).getD 0 0
        = specRightByte (([0x01, 0x80] : List Nat).getD 0 0)
            (([0x01, 0x80] : List Nat).getD
              ((0 + ([0x01, 0x80] : List Nat).length - 1) % ([0x01, 0x80] : List Nat).length) 0) :=
  ⟨by decide, by decide, right_branch_matches_spec_formula [0x01, 0x80] (by decide) 0 (by decide)⟩

/-- C3: for every byte sequence, empty one included, and either direction,
the output of `rotate` has exactly the length of the input. -/
theorem rotate_preserves_length (l : List Nat) (d : Instruction) :
    (rotate l d).length = l.length :=
  length_rotate_eq l d

/-- C4: on every non-empty byte sequence the two directions of `rotate` are
mutual inverses. -/
theorem rotate_left_right_mutual_inverse (l : List Nat) (hne : l ≠ [])
    (hb : ∀ x ∈ l, x < 256) :
    rotate (rotate l Instruction.LEFT) Instruction.RIGHT = l ∧
      rotate (rotate l Instruction.RIGHT) Instruction.LEFT = l := by
  have hN : 1 ≤ l.length := by
    cases l with
    | nil => exact absurd rfl hne
    | cons c t => simp
  constructor
  · apply bitsOfBytes_inj _ _ (rotate_mem_lt _ _) hb
    rw [bits_rotate_right (rotate l Instruction.LEFT)
        (rotate_ne_nil l Instruction.LEFT hne) (rotate_mem_lt l Instruction.LEFT),
      length_rotate_eq, bits_rotate_left l hne hb, List.rotate_rotate,
      show 1 + (8 * l.length - 1) = 8 * l.length from by omega,
      ← length_bitsOfBytes, List.rotate_length]
  · apply bitsOfBytes_inj _ _ (rotate_mem_lt _ _) hb
    rw [bits_rotate_left (rotate l Instruction.RIGHT)
        (rotate_ne_nil l Instruction.RIGHT hne) (rotate_mem_lt l Instruction.RIGHT),
      bits_rotate_right1 l hne hb]

theorem rotate_left_right_mutual_inverse_witness :
    (([0x0F, 0xA5, 0x01] : List Nat) ≠ []) ∧ (∀ x ∈ ([0x0F, 0xA5, 0x01] : List Nat), x < 256) ∧
      (rotate (rotate [0x0F, 0xA5, 0x01] Instruction.LEFT) Instruction.RIGHT
          = [0x0F, 0xA5, 0x01] ∧
        rotate (rotate [0x0F, 0xA5, 0x01] Instruction.RIGHT) Instruction.LEFT
          = [0x0F, 0xA5, 0x01]) :=
  ⟨by decide, by decide,
    rotate_left_right_mutual_inverse [0x0F, 0xA5, 0x01] (by decide) (by decide)⟩

/-- C5 counterexample: on the two-byte input `[0b00000001, 0b10000000]` the
right rotation does NOT produce the `[0b10000000, 0b11000000]` the claim
states; the code (like the spec's own per-byte formula) yields
`[0b00000000, 0b11000000]`. -/
theorem rotate_right_twobyte_claim_false :
    rotate [0b00000001, 0b10000000] Instruction.RIGHT ≠ [0b10000000, 0b11000000] := by decide

/-- C5 (amended): the right rotation of `[0b00000001, 0b10000000]` is
`[0b00000000, 0b11000000]`. -/
theorem rotate_right_twobyte_example :
    rotate [0b00000001, 0b10000000] Instruction.RIGHT = [0b00000000, 0b11000000] := by decide

/-- C6 (code bug): `parse_instruction` compares only the first four
characters against `"left"` after a `≤ 5` length check, so the five-character
token `leftx`, which is neither `left` nor `right`, is accepted as `LEFT`. -/
theorem parse_instruction_accepts_leftx :
    parse_instruction ['l', 'e', 'f', 't', 'x'] = some Instruction.LEFT ∧
      (['l', 'e', 'f', 't', 'x'] : List Char) ≠ ['l', 'e', 'f', 't'] ∧
      (['l', 'e', 'f', 't', 'x'] : List Char) ≠ ['r', 'i', 'g', 'h', 't'] := by
  refine ⟨by decide, by decide, by decide⟩

/-- C7: `rotate` maps the empty stream to the empty stream in both
directions (the loop bound `end_position` is `0`, so no byte is written);
the program therefore writes an empty output and exits successfully.  The
guard of line 195 itself never fires, see the results record. -/
theorem rotate_empty_both :
    rotate [] Instruction.LEFT = [] ∧ rotate [] Instruction.RIGHT = [] :=
  ⟨rfl, rfl⟩

/-- C8: the code as written, with the `0xA0` masks of lines 104, 117
and 142, computes exactly the same output as the variant using the
single most-significant-bit mask `0x80` in those three places, on every
input and direction. -/
theorem rotate_eq_rotate80 (l : List Nat) (d : Instruction) : rotate l d = rotate80 l d := by
  cases d with
  | LEFT =>
    show rotateLeftLoop ((l.headD 0xFF) &&& 0xA0) l
        = rotateLeftLoop80 ((l.headD 0xFF) &&& 0x80) l
    rw [rotateLeftLoop_mask l ((l.headD 0xFF) &&& 0xA0) (land_lt_256 _ 0xA0 (by decide)),
      Nat.and_assoc, (by decide : (0xA0 : Nat) &&& 0x80 = 0x80)]
  | RIGHT =>
    show rotateRightLoop ((l.getLastD 0xFF) &&& 0x01) l
        = rotateRightLoop80 ((l.getLastD 0xFF) &&& 0x01) l
    exact rotateRightLoop_mask l _ (land_one_lt_two _)

/-- C9: applying `rotate` in one fixed direction `8 * N` times to a byte
sequence of length `N` returns the sequence unchanged (full bit-cycle). -/
theorem rotate_full_cycle (l : List Nat) (d : Instruction) (hb : ∀ x ∈ l, x < 256) :
    (fun t => rotate t d)^[8 * l.length] l = l := by
  by_cases hne : l = []
  · subst hne; rfl
  · apply bitsOfBytes_inj _ _ (iterate_rotate_bounds d _ l hb) hb
    cases d with
    | LEFT =>
      rw [bits_iterate_left (8 * l.length) l hne hb, ← length_bitsOfBytes, List.rotate_length]
    | RIGHT =>
      rw [bits_iterate_right (8 * l.length) l hne hb, ← List.rotate_mod,
        length_bitsOfBytes, Nat.mul_mod_right, List.rotate_zero]

theorem rotate_full_cycle_witness :
    (∀ x ∈ ([0xB5, 0x03] : List Nat), x < 256) ∧
      (fun t => rotate t Instruction.RIGHT)^[8 * ([0xB5, 0x03] : List Nat).length] [0xB5, 0x03]
        = [0xB5, 0x03] :=
  ⟨by decide, rotate_full_cycle [0xB5, 0x03] Instruction.RIGHT (by decide)⟩

/-- C10: the identical-path guard of `main` fires exactly when the two path
argument strings are byte-wise equal (their lengths being below
`PATH_MAX`); it performs no filesystem resolution whatsoever. -/
theorem same_path_guard_is_string_equality (a b : List Char) (ha : a.length < PATH_MAX)
    (hb : b.length < PATH_MAX) : samePathRejected a b = true ↔ a = b := by
  unfold PATH_MAX at ha hb
  show (strncmpEq a b PATH_MAX = true) ↔ a = b
  unfold strncmpEq PATH_MAX
  rw [List.take_of_length_le (Nat.le_of_lt ha), List.take_of_length_le (Nat.le_of_lt hb)]
  exact beq_iff_eq

theorem same_path_guard_is_string_equality_witness :
    (['.', '/', 'f'] : List Char).length < PATH_MAX ∧
      (['f'] : List Char).length < PATH_MAX ∧
      ((samePathRejected ['.', '/', 'f'] ['f'] = true) ↔
        (['.', '/', 'f'] : List Char) = ['f']) :=
  ⟨by decide, by decide,
    same_path_guard_is_string_equality ['.', '/', 'f'] ['f'] (by decide) (by decide)⟩

end BitRotate
